import Mathlib

/-!
Verification development for the py3status relay (src/py3status/__init__.py).

The embedding models the three core pieces the specification talks about:

* the plugin injection-and-cache engine `inject` (source lines 208-248),
* the clock transformer `transform` (source lines 250-268),
* the protocol line processor `process_line` (source lines 180-206),
  together with the classify/serialize pair it implements.

Machine conventions: wall-clock timestamps are natural numbers of seconds,
JSON objects are ordered association lists (Python dicts preserve insertion
order), raw protocol lines are lists of characters with the trailing newline
already stripped, and a Python exception inside a modelled block is made
explicit in the control flow of the corresponding definition.
-/

namespace Py3status

/-- JSON scalar values stored in bar segment objects. -/
inductive JVal where
  | str (s : String)
  | jbool (b : Bool)
  | num (n : Int)
deriving DecidableEq

/-- A bar segment object: an ordered mapping from keys to JSON scalars. -/
abbrev Segment := List (String × JVal)

/-- First-match key lookup, the model of Python dict subscripting. -/
def lookupKey (seg : Segment) (k : String) : Option JVal :=
  match seg with
  | [] => none
  | (k2, v) :: rest => if k2 = k then some v else lookupKey rest k

/-- Python membership test `k in d`. -/
def hasKey (seg : Segment) (k : String) : Bool :=
  (lookupKey seg k).isSome

/-- Python dict assignment `d[k] = v`: overwrite in place when the key is
present, append at the end otherwise. -/
def setKey (seg : Segment) (k : String) (v : JVal) : Segment :=
  match seg with
  | [] => [(k, v)]
  | (k2, w) :: rest => if k2 = k then (k, v) :: rest else (k2, w) :: setKey rest k v

/-- A value produced by a plugin method: either a Python dict (the expected
shape) or some non-mapping value, kept opaque apart from a tag. -/
inductive RVal where
  | dict (seg : Segment)
  | nonDict (tag : Nat)
deriving DecidableEq

/-- One tick: the JSON array of values the relay forwards.  Well behaved
ticks hold only dicts, but the injection engine can splice any value in. -/
abbrev Tick := List RVal

/-- Python `list.insert` semantics: negative indices count from the end and
clamp at 0, indices past the end append. -/
def pyInsert (l : List α) (i : Int) (a : α) : List α :=
  let j : Nat := if i < 0 then l.length - (-i).toNat else min i.toNat l.length
  l.take j ++ a :: l.drop j

/-! ## The injection engine (source lines 208-248) -/

/-- Module default for the injection cache timeout (source line 66). -/
def CACHE_TIMEOUT : Nat := 60

/-- What a plugin method invocation does on a given tick: raise, or return an
(insert index, value) pair. -/
inductive MethodOutcome where
  | raises
  | returns (index : Int) (val : RVal)

/-- The per-method result cache USER_CACHE, keyed by the bare method name. -/
abbrev Cache := List (String × (Int × RVal))

def cacheGet (c : Cache) (m : String) : Option (Int × RVal) :=
  match c with
  | [] => none
  | (k, e) :: rest => if k = m then some e else cacheGet rest m

def cacheSet (c : Cache) (m : String) (e : Int × RVal) : Cache :=
  match c with
  | [] => [(m, e)]
  | (k, w) :: rest => if k = m then (m, e) :: rest else (k, w) :: cacheSet rest m e

/-- The method registry USER_CLASSES: class name to the list of discovered
method names paired with their invocation behavior. -/
abbrev Methods := List (String × (Tick → MethodOutcome))
abbrev Registry := List (String × Methods)

/-- Running state of one inject call: the cache, the tick being built, the
methods actually invoked so far (class name, method name) and the log lines
emitted so far. -/
structure ISt where
  cache : Cache
  tick : Tick
  invoked : List (String × String)
  logs : List String

/-- Outcome of probing a cached entry, modelling source lines 220-222
(`index, result = USER_CACHE[m]` then
`if time() > result[cached_until]: raise KeyError`). A dict without the key
raises KeyError (treated as expired); a non-mapping result or a non-numeric
cached_until raises TypeError instead, which the `except KeyError` handler
does not catch. -/
inductive CacheProbe where
  | hit
  | expired
  | typeErr

def probeEntry (now : Nat) (r : RVal) : CacheProbe :=
  match r with
  | .nonDict _ => .typeErr
  | .dict seg =>
    match lookupKey seg ("cached_until") with
    | none => .expired
    | some (.num v) => if (now : Int) > v then .expired else .hit
    | some (.jbool b) => if (now : Int) > (if b then 1 else 0) then .expired else .hit
    | some (.str _) => .typeErr

/-- Source lines 234-236: when the fresh result is a dict lacking a
cached_until field, default it to now + CACHE_TIMEOUT.  A non-mapping value
raises before any mutation and is left untouched. -/
def finalizeResult (timeout now : Nat) (r : RVal) : RVal :=
  match r with
  | .dict seg =>
    if hasKey seg ("cached_until") then .dict seg
    else .dict (setKey seg ("cached_until") (.num ((now : Int) + (timeout : Int))))
  | .nonDict t => .nonDict t

/-- Source lines 239-241: the three assertions on the plugin result. -/
def resultValid (r : RVal) : Bool :=
  match r with
  | .dict seg => hasKey seg ("full_text") && hasKey seg ("name")
  | .nonDict _ => false

/-- Common tail of the cache miss path: cached_until defaulting, the three
advisory assertions, then the `finally` block, which always stores the entry
under the method name and splices the value into the tick. -/
def finishMethod (timeout now : Nat) (cls m : String) (i : Int) (r0 : RVal)
    (lg : List String) (st : ISt) : ISt :=
  let r := finalizeResult timeout now r0
  { cache := cacheSet st.cache m (i, r)
    tick := pyInsert st.tick i r
    invoked := st.invoked ++ [(cls, m)]
    logs := st.logs ++ lg ++ (if resultValid r then [] else [("injection failed")]) }

/-- The cache miss path (source lines 224-243): invoke the method; an
exception is replaced by the placeholder result `(0, {name, full_text})`
and logged; then `finishMethod`. -/
def runMethod (timeout now : Nat) (cls m : String) (b : Tick → MethodOutcome)
    (st : ISt) : ISt :=
  match b st.tick with
  | .raises =>
      finishMethod timeout now cls m 0
        (.dict [(("name"), .str ("")), (("full_text"), .str (""))])
        [("user method failed")] st
  | .returns i r => finishMethod timeout now cls m i r [] st

/-- One iteration of the method loop of inject (source lines 216-247) for
class `cls` and method `m` with behavior `b`. -/
def injectStep (timeout now : Nat) (cls m : String) (b : Tick → MethodOutcome)
    (st : ISt) : ISt :=
  match cacheGet st.cache m with
  | none => runMethod timeout now cls m b st
  | some (idx, r) =>
    match probeEntry now r with
    | .expired => runMethod timeout now cls m b st
    | .hit =>
        -- valid entry: the plugin is not invoked; the finally block
        -- re-stores the entry and splices the cached value in
        { st with cache := cacheSet st.cache m (idx, r),
                  tick := pyInsert st.tick idx r }
    | .typeErr =>
        -- the exception escapes the KeyError handler, so the method is not
        -- invoked; the finally block still stores and splices, and the
        -- outer handler logs
        { st with cache := cacheSet st.cache m (idx, r),
                  tick := pyInsert st.tick idx r,
                  logs := st.logs ++ [("injection failed")] }

/-- The inner loop over the discovered methods of one class. -/
def injectClass (timeout now : Nat) (cls : String) : Methods → ISt → ISt
  | [], st => st
  | (m, b) :: rest, st =>
      injectClass timeout now cls rest (injectStep timeout now cls m b st)

/-- The outer loop over the classes. -/
def injectAll (timeout now : Nat) : Registry → ISt → ISt
  | [], st => st
  | (cls, ms) :: rest, st =>
      injectAll timeout now rest (injectClass timeout now cls ms st)

/-- Lexicographic comparison on character lists, the order `sorted` uses on
Python strings. -/
def lexLt : List Char → List Char → Bool
  | [], [] => false
  | [], _ :: _ => true
  | _ :: _, [] => false
  | a :: as, b :: bs => if a < b then true else if b < a then false else lexLt as bs

def strLt (a b : String) : Bool := lexLt a.data b.data

/-- Stable insertion into a class list kept sorted by class name. -/
def insReg (x : String × Methods) : Registry → Registry
  | [] => [x]
  | y :: ys => if strLt x.1 y.1 then x :: y :: ys else y :: insReg x ys

/-- The iteration order of inject: `sorted(USER_CLASSES.keys())`
(source line 214), as a stable insertion sort on the class name. -/
def sortReg : Registry → Registry
  | [] => []
  | x :: xs => insReg x (sortReg xs)

/-- The full inject call (source lines 208-248). -/
def inject (reg : Registry) (timeout now : Nat) (cache : Cache) (j : Tick) : ISt :=
  injectAll timeout now (sortReg reg)
    { cache := cache, tick := j, invoked := [], logs := [] }

/-- The forced refresh path replaces the cache with an empty mapping
(source line 402). -/
def clearedCache : Cache := []

/-! ## Basic lemmas about the association list operations -/

theorem lookup_setKey_self (seg : Segment) (k : String) (v : JVal) :
    lookupKey (setKey seg k v) k = some v := by
  induction seg with
  | nil => simp [setKey, lookupKey]
  | cons h rest ih =>
    obtain ⟨k2, w⟩ := h
    by_cases hk : k2 = k
    · simp [setKey, hk, lookupKey]
    · simp [setKey, hk, lookupKey, ih]

theorem lookup_setKey_ne (seg : Segment) (k k2 : String) (v : JVal)
    (h : k2 ≠ k) : lookupKey (setKey seg k v) k2 = lookupKey seg k2 := by
  induction seg with
  | nil => simp [setKey, lookupKey, Ne.symm h]
  | cons p rest ih =>
    obtain ⟨k3, w⟩ := p
    by_cases hk : k3 = k
    · subst hk
      simp [setKey, lookupKey, Ne.symm h]
    · simp [setKey, hk, lookupKey, ih]

theorem hasKey_setKey_ne (seg : Segment) (k k2 : String) (v : JVal)
    (h : k2 ≠ k) : hasKey (setKey seg k v) k2 = hasKey seg k2 := by
  simp [hasKey, lookup_setKey_ne seg k k2 v h]

theorem pyInsert_zero (l : List α) (a : α) : pyInsert l 0 a = a :: l := by
  simp [pyInsert]

/-- Defaulting cached_until does not change the outcome of the validation
assertions, which only look at the name and full_text keys. -/
theorem resultValid_finalize (timeout now : Nat) (r : RVal) :
    resultValid (finalizeResult timeout now r) = resultValid r := by
  cases r with
  | nonDict t => rfl
  | dict seg =>
    by_cases h : hasKey seg ("cached_until")
    · simp [finalizeResult, h]
    · simp [finalizeResult, h, resultValid,
        hasKey_setKey_ne seg ("cached_until") ("full_text") _ (by decide),
        hasKey_setKey_ne seg ("cached_until") ("name") _ (by decide)]

/-- An inject call on a one-class, one-method registry is a single
injectStep on the initial state. -/
theorem inject_single (c m : String) (b : Tick → MethodOutcome)
    (timeout now : Nat) (cache : Cache) (t : Tick) :
    inject [(c, [(m, b)])] timeout now cache t
      = injectStep timeout now c m b
          { cache := cache, tick := t, invoked := [], logs := [] } := rfl

/-! ## Stepping lemmas for the injection engine -/

theorem injectStep_miss (timeout now : Nat) (cls m : String)
    (b : Tick → MethodOutcome) (st : ISt)
    (hget : cacheGet st.cache m = none) :
    injectStep timeout now cls m b st = runMethod timeout now cls m b st := by
  simp only [injectStep, hget]

theorem injectStep_hit (timeout now : Nat) (cls m : String)
    (b : Tick → MethodOutcome) (st : ISt) (idx : Int) (r : RVal)
    (hget : cacheGet st.cache m = some (idx, r))
    (hprobe : probeEntry now r = .hit) :
    injectStep timeout now cls m b st
      = { st with cache := cacheSet st.cache m (idx, r),
                  tick := pyInsert st.tick idx r } := by
  simp only [injectStep, hget, hprobe]

theorem injectStep_expired (timeout now : Nat) (cls m : String)
    (b : Tick → MethodOutcome) (st : ISt) (idx : Int) (r : RVal)
    (hget : cacheGet st.cache m = some (idx, r))
    (hprobe : probeEntry now r = .expired) :
    injectStep timeout now cls m b st = runMethod timeout now cls m b st := by
  simp only [injectStep, hget, hprobe]

theorem runMethod_returns (timeout now : Nat) (cls m : String)
    (b : Tick → MethodOutcome) (st : ISt) (i : Int) (r : RVal)
    (hb : b st.tick = .returns i r) :
    runMethod timeout now cls m b st = finishMethod timeout now cls m i r [] st := by
  simp only [runMethod, hb]

theorem runMethod_raises (timeout now : Nat) (cls m : String)
    (b : Tick → MethodOutcome) (st : ISt)
    (hb : b st.tick = .raises) :
    runMethod timeout now cls m b st
      = finishMethod timeout now cls m 0
          (.dict [(("name"), .str ("")), (("full_text"), .str (""))])
          [("user method failed")] st := by
  simp only [runMethod, hb]

theorem finishMethod_eq (timeout now : Nat) (cls m : String) (i : Int)
    (r0 : RVal) (lg : List String) (st : ISt) :
    finishMethod timeout now cls m i r0 lg st
      = { cache := cacheSet st.cache m (i, finalizeResult timeout now r0)
          tick := pyInsert st.tick i (finalizeResult timeout now r0)
          invoked := st.invoked ++ [(cls, m)]
          logs := st.logs ++ lg ++
            (if resultValid (finalizeResult timeout now r0) then []
             else [("injection failed")]) } := rfl

theorem probeEntry_hit (now : Nat) (seg : Segment) (v : Int)
    (hcu : lookupKey seg ("cached_until") = some (.num v))
    (h : (now : Int) ≤ v) :
    probeEntry now (.dict seg) = .hit := by
  simp only [probeEntry, hcu]
  rw [if_neg (by omega)]

theorem probeEntry_expired (now : Nat) (seg : Segment) (v : Int)
    (hcu : lookupKey seg ("cached_until") = some (.num v))
    (h : v < (now : Int)) :
    probeEntry now (.dict seg) = .expired := by
  simp only [probeEntry, hcu]
  rw [if_pos (by omega)]

theorem cacheGet_singleton (m : String) (e : Int × RVal) :
    cacheGet [(m, e)] m = some e := by
  simp [cacheGet]

/-- Whatever the method does when called (return or raise), the miss path
always records exactly one invocation of it. -/
theorem runMethod_invoked (timeout now : Nat) (cls m : String)
    (b : Tick → MethodOutcome) (st : ISt) :
    (runMethod timeout now cls m b st).invoked = st.invoked ++ [(cls, m)] := by
  unfold runMethod
  cases b st.tick <;> simp [finishMethod]

/-! ## Claim C1: cache validity window -/

/-- Claim C1: after a first inject call invokes a method and caches its
result, a second inject call while the wall clock is at most the cached
cached_until timestamp performs no second invocation and splices the cached
(insertIndex, segment) pair back in; the method is re-invoked precisely when
now exceeds cached_until. -/
theorem inject_ttl_no_reinvoke (c m : String) (b : Tick → MethodOutcome)
    (timeout now : Nat) (t : Tick) (i : Int) (seg : Segment)
    (hb : b t = .returns i (.dict seg))
    (hnc : hasKey seg ("cached_until") = false) :
    (inject [(c, [(m, b)])] timeout now clearedCache t).invoked = [(c, m)] ∧
    ∀ now2 : Nat, ∀ t2 : Tick,
      ((now2 : Int) ≤ (now : Int) + (timeout : Int) →
        (inject [(c, [(m, b)])] timeout now2
            (inject [(c, [(m, b)])] timeout now clearedCache t).cache t2).invoked
          = [] ∧
        (inject [(c, [(m, b)])] timeout now2
            (inject [(c, [(m, b)])] timeout now clearedCache t).cache t2).tick
          = pyInsert t2 i (.dict (setKey seg ("cached_until")
              (.num ((now : Int) + (timeout : Int)))))) ∧
      ((now : Int) + (timeout : Int) < (now2 : Int) →
        (inject [(c, [(m, b)])] timeout now2
            (inject [(c, [(m, b)])] timeout now clearedCache t).cache t2).invoked
          = [(c, m)]) := by
  set rv : RVal := .dict (setKey seg ("cached_until")
      (.num ((now : Int) + (timeout : Int)))) with hrv
  have hfin : finalizeResult timeout now (.dict seg) = rv := by
    simp [finalizeResult, hnc, hrv]
  have h1 : inject [(c, [(m, b)])] timeout now clearedCache t
      = { cache := [(m, (i, rv))],
          tick := pyInsert t i rv,
          invoked := [(c, m)],
          logs := if resultValid rv then [] else [("injection failed")] } := by
    rw [inject_single,
      injectStep_miss timeout now c m b _ (by simp [clearedCache, cacheGet]),
      runMethod_returns timeout now c m b _ i (.dict seg) hb,
      finishMethod_eq, hfin]
    simp [cacheSet, clearedCache]
  have hcu : lookupKey (setKey seg ("cached_until")
      (.num ((now : Int) + (timeout : Int)))) ("cached_until")
      = some (.num ((now : Int) + (timeout : Int))) := lookup_setKey_self _ _ _
  refine ⟨by rw [h1], ?_⟩
  intro now2 t2
  rw [h1]
  constructor
  · intro hle
    rw [inject_single,
      injectStep_hit timeout now2 c m b _ i rv (cacheGet_singleton m (i, rv))
        (probeEntry_hit now2 _ _ hcu hle)]
    simp
  · intro hgt
    rw [inject_single,
      injectStep_expired timeout now2 c m b _ i rv (cacheGet_singleton m (i, rv))
        (probeEntry_expired now2 _ _ hcu hgt),
      runMethod_invoked]
    simp

theorem inject_ttl_no_reinvoke_witness :
    hasKey [(("name"), JVal.str ("n")), (("full_text"), JVal.str ("x"))]
      ("cached_until") = false ∧
    (inject [(("alpha"),
        [(("battery"), fun _ => MethodOutcome.returns 0
          (.dict [(("name"), JVal.str ("n")), (("full_text"), JVal.str ("x"))]))])]
      60 10 clearedCache []).invoked = [(("alpha"), ("battery"))] :=
  ⟨by decide,
   (inject_ttl_no_reinvoke ("alpha") ("battery") _ 60 10 [] 0 _ rfl (by decide)).1⟩

/-! ## Claim C3: validation is advisory only -/

/-- Claim C3: when a method invocation returns a result that fails validation
(not a mapping, or missing the name or full_text key), inject still stores
the (insertIndex, result) pair in the cache under the method key and still
splices the result into the tick at insertIndex; the failure is only
logged. -/
theorem inject_invalid_still_cached (c m : String) (b : Tick → MethodOutcome)
    (timeout now : Nat) (t : Tick) (i : Int) (r : RVal)
    (hb : b t = .returns i r)
    (hinv : resultValid r = false) :
    (inject [(c, [(m, b)])] timeout now clearedCache t).cache
      = [(m, (i, finalizeResult timeout now r))] ∧
    (inject [(c, [(m, b)])] timeout now clearedCache t).tick
      = pyInsert t i (finalizeResult timeout now r) ∧
    (inject [(c, [(m, b)])] timeout now clearedCache t).logs
      = [("injection failed")] := by
  rw [inject_single,
    injectStep_miss timeout now c m b _ (by simp [clearedCache, cacheGet]),
    runMethod_returns timeout now c m b _ i r hb,
    finishMethod_eq]
  simp [cacheSet, clearedCache, resultValid_finalize, hinv]

theorem inject_invalid_still_cached_witness :
    resultValid (RVal.dict [(("full_text"), JVal.str ("v"))]) = false ∧
    (inject [(("p"), [(("meth"), fun _ => MethodOutcome.returns 2
        (RVal.dict [(("full_text"), JVal.str ("v"))]))])] 60 5 clearedCache
      []).cache
      = [(("meth"), (2, finalizeResult 60 5
          (RVal.dict [(("full_text"), JVal.str ("v"))])))] :=
  ⟨by decide,
   (inject_invalid_still_cached ("p") ("meth") _ 60 5 [] 2 _ rfl (by decide)).1⟩

/-! ## Claim C4: raising methods are replaced by a cached placeholder -/

/-- The placeholder result substituted for a raising plugin method, as it
looks after cached_until defaulting. -/
def placeholderCached (timeout now : Nat) : RVal :=
  .dict [(("name"), .str ("")), (("full_text"), .str ("")),
         (("cached_until"), .num ((now : Int) + (timeout : Int)))]

/-- Claim C4: when a plugin method raises, inject substitutes the
placeholder (0, {name: "", full_text: ""}), defaults its cached_until to
now plus the cache timeout (whose module default is 60 seconds), caches it
under the method key, logs the failure, and splices it at index 0; while
the wall clock stays within that TTL, later inject calls do not re-invoke
the method and splice the same placeholder in unchanged. -/
theorem inject_raises_placeholder (c m : String) (b : Tick → MethodOutcome)
    (timeout now : Nat) (t : Tick)
    (hb : b t = .raises) :
    CACHE_TIMEOUT = 60 ∧
    (inject [(c, [(m, b)])] timeout now clearedCache t).cache
      = [(m, (0, placeholderCached timeout now))] ∧
    (inject [(c, [(m, b)])] timeout now clearedCache t).tick
      = placeholderCached timeout now :: t ∧
    (inject [(c, [(m, b)])] timeout now clearedCache t).invoked = [(c, m)] ∧
    (inject [(c, [(m, b)])] timeout now clearedCache t).logs
      = [("user method failed")] ∧
    ∀ now2 : Nat, ∀ t2 : Tick, (now2 : Int) ≤ (now : Int) + (timeout : Int) →
      (inject [(c, [(m, b)])] timeout now2
          (inject [(c, [(m, b)])] timeout now clearedCache t).cache t2).invoked
        = [] ∧
      (inject [(c, [(m, b)])] timeout now2
          (inject [(c, [(m, b)])] timeout now clearedCache t).cache t2).tick
        = placeholderCached timeout now :: t2 := by
  have h1 : inject [(c, [(m, b)])] timeout now clearedCache t
      = { cache := [(m, (0, placeholderCached timeout now))],
          tick := placeholderCached timeout now :: t,
          invoked := [(c, m)],
          logs := [("user method failed")] } := by
    rw [inject_single,
      injectStep_miss timeout now c m b _ (by simp [clearedCache, cacheGet]),
      runMethod_raises timeout now c m b _ hb,
      finishMethod_eq]
    simp [cacheSet, clearedCache, finalizeResult, hasKey, lookupKey, setKey,
      resultValid, placeholderCached, pyInsert_zero]
  have hcu : lookupKey [(("name"), JVal.str ("")), (("full_text"), JVal.str ("")),
      (("cached_until"), JVal.num ((now : Int) + (timeout : Int)))]
      ("cached_until") = some (.num ((now : Int) + (timeout : Int))) := by
    simp [lookupKey]
  refine ⟨rfl, by rw [h1], by rw [h1], by rw [h1], by rw [h1], ?_⟩
  intro now2 t2 hle
  rw [h1, inject_single,
    injectStep_hit timeout now2 c m b _ 0 (placeholderCached timeout now)
      (cacheGet_singleton m _) (probeEntry_hit now2 _ _ hcu hle)]
  simp [pyInsert_zero]

theorem inject_raises_placeholder_witness :
    ((fun _ => MethodOutcome.raises) ([] : Tick) = MethodOutcome.raises) ∧
    (inject [(("p"), [(("broken"), fun _ => MethodOutcome.raises)])]
        60 5 clearedCache []).tick = placeholderCached 60 5 :: [] :=
  ⟨rfl, (inject_raises_placeholder ("p") ("broken") _ 60 5 [] rfl).2.2.1⟩

/-! ## Claims C9 and C10: iteration order and cache keying -/

theorem lexLt_asymm : ∀ a b : List Char, lexLt a b = true → lexLt b a = false := by
  intro a
  induction a with
  | nil => intro b h; cases b <;> simp_all [lexLt]
  | cons x xs ih =>
    intro b h
    cases b with
    | nil => simp [lexLt] at h
    | cons y ys =>
      by_cases hxy : x < y
      · have hyx : ¬ y < x := lt_asymm hxy
        simp [lexLt, hxy, hyx]
      · by_cases hyx : y < x
        · simp [lexLt, hxy, hyx] at h
        · simp only [lexLt, if_neg hxy, if_neg hyx] at h
          simp only [lexLt, if_neg hyx, if_neg hxy]
          exact ih ys h

theorem strLt_asymm (a b : String) (h : strLt a b = true) : strLt b a = false :=
  lexLt_asymm a.data b.data h

theorem sortReg_pair (cA cB : String) (msA msB : Methods)
    (hlt : strLt cA cB = true) :
    sortReg [(cA, msA), (cB, msB)] = [(cA, msA), (cB, msB)] := by
  simp [sortReg, insReg, hlt]

theorem sortReg_pair_swap (cA cB : String) (msA msB : Methods)
    (hlt : strLt cA cB = true) :
    sortReg [(cB, msB), (cA, msA)] = [(cA, msA), (cB, msB)] := by
  simp [sortReg, insReg, hlt, strLt_asymm cA cB hlt]

/-- Claim C10: the result cache is keyed by the bare method name.  With two
plugins that expose a method of the same name, the class processed first (in
lexicographic order) is the only one whose method is invoked within the TTL
window; both iterations store the same entry and splice the same cached
value into the tick. -/
theorem inject_cache_keyed_by_method_name (cA cB m : String)
    (bA bB : Tick → MethodOutcome) (timeout now : Nat) (t : Tick)
    (i : Int) (seg : Segment)
    (hlt : strLt cA cB = true)
    (hbA : bA t = .returns i (.dict seg))
    (hnc : hasKey seg ("cached_until") = false) :
    (inject [(cA, [(m, bA)]), (cB, [(m, bB)])] timeout now clearedCache t).invoked
      = [(cA, m)] ∧
    (inject [(cA, [(m, bA)]), (cB, [(m, bB)])] timeout now clearedCache t).cache
      = [(m, (i, .dict (setKey seg ("cached_until")
          (.num ((now : Int) + (timeout : Int))))))] ∧
    (inject [(cA, [(m, bA)]), (cB, [(m, bB)])] timeout now clearedCache t).tick
      = pyInsert (pyInsert t i (.dict (setKey seg ("cached_until")
          (.num ((now : Int) + (timeout : Int)))))) i
          (.dict (setKey seg ("cached_until")
            (.num ((now : Int) + (timeout : Int))))) := by
  set rv : RVal := .dict (setKey seg ("cached_until")
      (.num ((now : Int) + (timeout : Int)))) with hrv
  have hfin : finalizeResult timeout now (.dict seg) = rv := by
    simp [finalizeResult, hnc, hrv]
  have hstep : inject [(cA, [(m, bA)]), (cB, [(m, bB)])] timeout now clearedCache t
      = injectStep timeout now cB m bB
          (injectStep timeout now cA m bA ⟨[], t, [], []⟩) := by
    unfold inject
    rw [sortReg_pair cA cB _ _ hlt]
    rfl
  have e1 : injectStep timeout now cA m bA ⟨[], t, [], []⟩
      = ⟨[(m, (i, rv))], pyInsert t i rv, [(cA, m)],
         if resultValid rv then [] else [("injection failed")]⟩ := by
    rw [injectStep_miss _ _ _ _ _ _ (by simp [cacheGet]),
      runMethod_returns _ _ _ _ _ _ i (.dict seg) hbA,
      finishMethod_eq, hfin]
    simp [cacheSet]
  have hcu : lookupKey (setKey seg ("cached_until")
      (.num ((now : Int) + (timeout : Int)))) ("cached_until")
      = some (.num ((now : Int) + (timeout : Int))) := lookup_setKey_self _ _ _
  have e2 : injectStep timeout now cB m bB
      (⟨[(m, (i, rv))], pyInsert t i rv, [(cA, m)],
        if resultValid rv then [] else [("injection failed")]⟩ : ISt)
      = ⟨[(m, (i, rv))], pyInsert (pyInsert t i rv) i rv, [(cA, m)],
         if resultValid rv then [] else [("injection failed")]⟩ := by
    rw [injectStep_hit timeout now cB m bB _ i rv (cacheGet_singleton m (i, rv))
      (probeEntry_hit now _ _ hcu (by omega))]
    simp [cacheSet]
  rw [hstep, e1, e2]
  exact ⟨rfl, rfl, rfl⟩

theorem inject_cache_keyed_by_method_name_witness :
    strLt ("aplug") ("bplug") = true ∧
    (inject [(("aplug"), [(("clock"), fun _ => MethodOutcome.returns 0
        (RVal.dict [(("name"), JVal.str ("c")), (("full_text"), JVal.str ("t"))]))]),
      (("bplug"), [(("clock"), fun _ => MethodOutcome.raises)])]
      60 7 clearedCache []).invoked = [(("aplug"), ("clock"))] :=
  ⟨by decide,
   (inject_cache_keyed_by_method_name ("aplug") ("bplug") ("clock") _ _ 60 7 [] 0 _
     (by decide) rfl (by decide)).1⟩

/-- Claim C9: plugin ids are iterated in sorted (lexicographic) order and
methods within one plugin in discovery order; each result is spliced with a
positional insert that shifts existing entries right, so when all methods
use the same insert index the iteration order determines the final
left-to-right arrangement (the last iterated method ends up leftmost). -/
theorem inject_iteration_order (cA cB m1 m2 m3 : String)
    (b1 b2 b3 : Tick → MethodOutcome) (r1 r2 r3 : RVal)
    (timeout now : Nat) (t : Tick)
    (hlt : strLt cA cB = true)
    (h12 : m1 ≠ m2) (h13 : m1 ≠ m3) (h23 : m2 ≠ m3)
    (hb1 : b1 t = .returns 0 r1)
    (hb2 : b2 (finalizeResult timeout now r1 :: t) = .returns 0 r2)
    (hb3 : b3 (finalizeResult timeout now r2 ::
      finalizeResult timeout now r1 :: t) = .returns 0 r3) :
    (inject [(cB, [(m3, b3)]), (cA, [(m1, b1), (m2, b2)])]
        timeout now clearedCache t).invoked
      = [(cA, m1), (cA, m2), (cB, m3)] ∧
    (inject [(cB, [(m3, b3)]), (cA, [(m1, b1), (m2, b2)])]
        timeout now clearedCache t).tick
      = finalizeResult timeout now r3 :: finalizeResult timeout now r2 ::
        finalizeResult timeout now r1 :: t := by
  have hstep : inject [(cB, [(m3, b3)]), (cA, [(m1, b1), (m2, b2)])]
        timeout now clearedCache t
      = injectStep timeout now cB m3 b3
          (injectStep timeout now cA m2 b2
            (injectStep timeout now cA m1 b1 ⟨[], t, [], []⟩)) := by
    unfold inject
    rw [sortReg_pair_swap cA cB _ _ hlt]
    rfl
  have e1 : injectStep timeout now cA m1 b1 ⟨[], t, [], []⟩
      = ⟨[(m1, (0, finalizeResult timeout now r1))],
         finalizeResult timeout now r1 :: t, [(cA, m1)],
         if resultValid (finalizeResult timeout now r1) then []
         else [("injection failed")]⟩ := by
    rw [injectStep_miss _ _ _ _ _ _ (by simp [cacheGet]),
      runMethod_returns _ _ _ _ _ _ 0 r1 hb1, finishMethod_eq]
    simp [cacheSet, pyInsert_zero]
  have e2 : injectStep timeout now cA m2 b2
      (⟨[(m1, (0, finalizeResult timeout now r1))],
        finalizeResult timeout now r1 :: t, [(cA, m1)],
        if resultValid (finalizeResult timeout now r1) then []
        else [("injection failed")]⟩ : ISt)
      = ⟨[(m1, (0, finalizeResult timeout now r1)),
          (m2, (0, finalizeResult timeout now r2))],
         finalizeResult timeout now r2 :: finalizeResult timeout now r1 :: t,
         [(cA, m1), (cA, m2)],
         (if resultValid (finalizeResult timeout now r1) then []
          else [("injection failed")]) ++
         (if resultValid (finalizeResult timeout now r2) then []
          else [("injection failed")])⟩ := by
    rw [injectStep_miss _ _ _ _ _ _ (by simp [cacheGet, h12]),
      runMethod_returns _ _ _ _ _ _ 0 r2 hb2, finishMethod_eq]
    simp [cacheSet, h12, pyInsert_zero]
  have e3 : injectStep timeout now cB m3 b3
      (⟨[(m1, (0, finalizeResult timeout now r1)),
         (m2, (0, finalizeResult timeout now r2))],
        finalizeResult timeout now r2 :: finalizeResult timeout now r1 :: t,
        [(cA, m1), (cA, m2)],
        (if resultValid (finalizeResult timeout now r1) then []
         else [("injection failed")]) ++
        (if resultValid (finalizeResult timeout now r2) then []
         else [("injection failed")])⟩ : ISt)
      = ⟨[(m1, (0, finalizeResult timeout now r1)),
          (m2, (0, finalizeResult timeout now r2)),
          (m3, (0, finalizeResult timeout now r3))],
         finalizeResult timeout now r3 :: finalizeResult timeout now r2 ::
           finalizeResult timeout now r1 :: t,
         [(cA, m1), (cA, m2), (cB, m3)],
         ((if resultValid (finalizeResult timeout now r1) then []
           else [("injection failed")]) ++
          (if resultValid (finalizeResult timeout now r2) then []
           else [("injection failed")])) ++
         (if resultValid (finalizeResult timeout now r3) then []
          else [("injection failed")])⟩ := by
    rw [injectStep_miss _ _ _ _ _ _ (by simp [cacheGet, h13, h23]),
      runMethod_returns _ _ _ _ _ _ 0 r3 hb3, finishMethod_eq]
    simp [cacheSet, h13, h23, pyInsert_zero]
  rw [hstep, e1, e2, e3]
  exact ⟨rfl, rfl⟩

theorem inject_iteration_order_witness :
    strLt ("aaa") ("bbb") = true ∧
    (inject [(("bbb"), [(("m3"), fun _ => MethodOutcome.returns 0
        (RVal.dict [(("name"), JVal.str ("3")), (("full_text"), JVal.str ("3"))]))]),
      (("aaa"), [(("m1"), fun _ => MethodOutcome.returns 0
        (RVal.dict [(("name"), JVal.str ("1")), (("full_text"), JVal.str ("1"))])),
       (("m2"), fun _ => MethodOutcome.returns 0
        (RVal.dict [(("name"), JVal.str ("2")), (("full_text"), JVal.str ("2"))]))])]
      60 3 clearedCache []).invoked
      = [(("aaa"), ("m1")), (("aaa"), ("m2")), (("bbb"), ("m3"))] :=
  ⟨by decide,
   (inject_iteration_order ("aaa") ("bbb") ("m1") ("m2") ("m3") _ _ _ _ _ _ 60 3 []
     (by decide) (by decide) (by decide) (by decide) rfl rfl rfl).1⟩

/-! ## Claim C5: a cleared cache forces re-invocation -/

/-- All (class, method) pairs of a registry, in iteration order. -/
def allMethods : Registry → List (String × String)
  | [] => []
  | (cls, ms) :: rest => ms.map (fun mb => (cls, mb.1)) ++ allMethods rest

/-- The bare method names of a registry, in iteration order. -/
def methodNames (reg : Registry) : List String := (allMethods reg).map Prod.snd

def cacheKeys : Cache → List String
  | [] => []
  | (k, _) :: rest => k :: cacheKeys rest

theorem cacheGet_eq_none (c : Cache) (m : String) (h : m ∉ cacheKeys c) :
    cacheGet c m = none := by
  induction c with
  | nil => rfl
  | cons p rest ih =>
    obtain ⟨k, e⟩ := p
    simp [cacheKeys] at h
    have hkm : ¬ k = m := fun hk => h.1 hk.symm
    simp [cacheGet, hkm, ih h.2]

theorem mem_cacheKeys_cacheSet (c : Cache) (m k : String) (e : Int × RVal) :
    k ∈ cacheKeys (cacheSet c m e) ↔ k ∈ cacheKeys c ∨ k = m := by
  induction c with
  | nil => simp [cacheSet, cacheKeys]
  | cons p rest ih =>
    obtain ⟨k2, e2⟩ := p
    by_cases hk : k2 = m
    · subst hk
      simp [cacheSet, cacheKeys]
      tauto
    · simp only [cacheSet, if_neg hk, cacheKeys, List.mem_cons]
      rw [ih]
      tauto

theorem runMethod_cache_isSet (timeout now : Nat) (cls m : String)
    (b : Tick → MethodOutcome) (st : ISt) :
    ∃ e, (runMethod timeout now cls m b st).cache = cacheSet st.cache m e := by
  unfold runMethod
  cases b st.tick with
  | raises =>
    exact ⟨(0, finalizeResult timeout now
      (.dict [(("name"), .str ("")), (("full_text"), .str (""))])),
      by simp [finishMethod]⟩
  | returns i r =>
    exact ⟨(i, finalizeResult timeout now r), by simp [finishMethod]⟩

theorem injectClass_fresh (timeout now : Nat) (cls : String) :
    ∀ ms : Methods, ∀ st : ISt,
    (∀ mb ∈ ms, mb.1 ∉ cacheKeys st.cache) →
    (ms.map Prod.fst).Nodup →
    (injectClass timeout now cls ms st).invoked
        = st.invoked ++ ms.map (fun mb => (cls, mb.1)) ∧
    (∀ k, k ∈ cacheKeys (injectClass timeout now cls ms st).cache ↔
        k ∈ cacheKeys st.cache ∨ k ∈ ms.map Prod.fst) := by
  intro ms
  induction ms with
  | nil => intro st _ _; simp [injectClass]
  | cons mb rest ih =>
    intro st hfresh hnd
    obtain ⟨m, b⟩ := mb
    have hm : m ∉ cacheKeys st.cache := hfresh (m, b) (by simp)
    have hstep : injectStep timeout now cls m b st = runMethod timeout now cls m b st :=
      injectStep_miss _ _ _ _ _ _ (cacheGet_eq_none _ _ hm)
    obtain ⟨e, hce⟩ := runMethod_cache_isSet timeout now cls m b st
    have hkeys : ∀ k, k ∈ cacheKeys (runMethod timeout now cls m b st).cache ↔
        k ∈ cacheKeys st.cache ∨ k = m := by
      intro k
      rw [hce]
      exact mem_cacheKeys_cacheSet _ _ _ _
    have hnd0 : m ∉ (rest.map Prod.fst) ∧ (rest.map Prod.fst).Nodup :=
      List.nodup_cons.mp hnd
    have hnd' : (rest.map Prod.fst).Nodup := hnd0.2
    have hmn : m ∉ rest.map Prod.fst := hnd0.1
    have hfresh' : ∀ mb2 ∈ rest, mb2.1 ∉ cacheKeys (runMethod timeout now cls m b st).cache := by
      intro mb2 hmem
      rw [hkeys]
      push_neg
      refine ⟨hfresh mb2 (by simp [hmem]), ?_⟩
      intro hEq
      exact absurd (hEq ▸ (List.mem_map.mpr ⟨mb2, hmem, rfl⟩)) hmn
    have hrec := ih (runMethod timeout now cls m b st) hfresh' hnd'
    constructor
    · simp only [injectClass, hstep]
      rw [hrec.1, runMethod_invoked]
      simp
    · intro k
      simp only [injectClass, hstep]
      rw [hrec.2 k, hkeys k]
      simp
      tauto

theorem injectAll_fresh (timeout now : Nat) :
    ∀ classes : Registry, ∀ st : ISt,
    (∀ nm ∈ methodNames classes, nm ∉ cacheKeys st.cache) →
    (methodNames classes).Nodup →
    (injectAll timeout now classes st).invoked = st.invoked ++ allMethods classes := by
  intro classes
  induction classes with
  | nil => intro st _ _; simp [injectAll, allMethods]
  | cons cm rest ih =>
    intro st hfresh hnd
    obtain ⟨cls, ms⟩ := cm
    have hsplit : methodNames ((cls, ms) :: rest)
        = ms.map Prod.fst ++ methodNames rest := by
      simp [methodNames, allMethods]
    rw [hsplit] at hfresh hnd
    have hnd1 : (ms.map Prod.fst).Nodup := (List.nodup_append.mp hnd).1
    have hnd2 : (methodNames rest).Nodup := (List.nodup_append.mp hnd).2.1
    have hdisj : ∀ a, a ∈ ms.map Prod.fst → a ∈ methodNames rest → False := by
      have := (List.nodup_append.mp hnd).2.2
      intro a h1 h2
      exact this h1 h2
    have hcl := injectClass_fresh timeout now cls ms st
      (by
        intro mb hmem
        exact hfresh mb.1 (by simp [List.mem_map.mpr ⟨mb, hmem, rfl⟩]))
      hnd1
    have hfresh' : ∀ nm ∈ methodNames rest,
        nm ∉ cacheKeys (injectClass timeout now cls ms st).cache := by
      intro nm hmem
      rw [hcl.2 nm]
      push_neg
      exact ⟨hfresh nm (by simp [hmem]), fun hin => hdisj nm hin hmem⟩
    have := ih (injectClass timeout now cls ms st) hfresh' hnd2
    simp only [injectAll]
    rw [this, hcl.1, allMethods]
    simp

theorem allMethods_insReg (x : String × Methods) :
    ∀ ys : Registry, List.Perm (allMethods (insReg x ys))
      (x.2.map (fun mb => (x.1, mb.1)) ++ allMethods ys) := by
  intro ys
  induction ys with
  | nil =>
    obtain ⟨c, ms⟩ := x
    simp [insReg, allMethods]
  | cons y rest ih =>
    obtain ⟨c, ms⟩ := x
    by_cases hlt : strLt c y.1
    · simp [insReg, hlt, allMethods]
    · simp only [insReg, hlt, Bool.false_eq_true, if_false]
      have h1 : allMethods (y :: insReg (c, ms) rest)
          = y.2.map (fun mb => (y.1, mb.1)) ++ allMethods (insReg (c, ms) rest) := by
        obtain ⟨yc, yms⟩ := y
        simp [allMethods]
      have h2 : allMethods (y :: rest)
          = y.2.map (fun mb => (y.1, mb.1)) ++ allMethods rest := by
        obtain ⟨yc, yms⟩ := y
        simp [allMethods]
      rw [h1, h2]
      refine (List.Perm.append_left _ ih).trans ?_
      rw [← List.append_assoc, ← List.append_assoc]
      exact List.Perm.append_right _ List.perm_append_comm

theorem allMethods_sortReg :
    ∀ reg : Registry, List.Perm (allMethods (sortReg reg)) (allMethods reg) := by
  intro reg
  induction reg with
  | nil => simp [sortReg]
  | cons x rest ih =>
    obtain ⟨c, ms⟩ := x
    have h2 : allMethods ((c, ms) :: rest)
        = ms.map (fun mb => (c, mb.1)) ++ allMethods rest := by
      simp [allMethods]
    simp only [sortReg]
    rw [h2]
    exact (allMethods_insReg (c, ms) (sortReg rest)).trans
      (List.Perm.append_left _ ih)

/-- Claim C5 (amended): after the cache is cleared, the immediately following
inject call invokes, provided no two registered plugins share a bare method
name, every registered plugin method exactly once (the invocation list is
the registered method list, in sorted iteration order), regardless of any
previously stored cached_until timestamps (the cleared cache holds none). -/
theorem inject_cleared_invokes_all (reg : Registry) (timeout now : Nat)
    (t : Tick) (hnd : (methodNames reg).Nodup) :
    (inject reg timeout now clearedCache t).invoked = allMethods (sortReg reg) ∧
    List.Perm (inject reg timeout now clearedCache t).invoked (allMethods reg) := by
  have hperm : List.Perm (methodNames (sortReg reg)) (methodNames reg) :=
    List.Perm.map Prod.snd (allMethods_sortReg reg)
  have hnd' : (methodNames (sortReg reg)).Nodup := hperm.nodup_iff.mpr hnd
  have h := injectAll_fresh timeout now (sortReg reg)
    ⟨clearedCache, t, [], []⟩
    (by intro nm _; simp [cacheKeys, clearedCache]) hnd'
  have h1 : (inject reg timeout now clearedCache t).invoked
      = allMethods (sortReg reg) := by
    unfold inject
    rw [h]
    simp
  exact ⟨h1, h1 ▸ allMethods_sortReg reg⟩

theorem inject_cleared_invokes_all_witness :
    (methodNames [(("b"), [(("n2"), fun _ => MethodOutcome.raises)]),
       (("a"), [(("n1"), fun _ => MethodOutcome.raises)])]).Nodup ∧
    (inject [(("b"), [(("n2"), fun _ => MethodOutcome.raises)]),
       (("a"), [(("n1"), fun _ => MethodOutcome.raises)])]
      60 1 clearedCache []).invoked
      = allMethods (sortReg [(("b"), [(("n2"), fun _ => MethodOutcome.raises)]),
          (("a"), [(("n1"), fun _ => MethodOutcome.raises)])]) :=
  ⟨by
    constructor
    · simp [methodNames, allMethods]
    · simp [methodNames, allMethods],
   (inject_cleared_invokes_all _ 60 1 []
     (by
       constructor
       · simp [methodNames, allMethods]
       · simp [methodNames, allMethods])).1⟩

/-- Counterexample to claim C5 as stated: two plugins, alphabetically "a"
and "b", each register a method named "shared"; after the cache is cleared,
the next inject call invokes only the first plugin's method — the second
registered plugin method is never invoked, because the cache is keyed by the
bare method name and the entry just stored by the first plugin is still
fresh. -/
theorem inject_cleared_shadowed_not_invoked :
    (inject [(("a"), [(("shared"), fun _ => MethodOutcome.returns 0
        (RVal.dict [(("name"), JVal.str ("one")), (("full_text"), JVal.str ("1"))]))]),
      (("b"), [(("shared"), fun _ => MethodOutcome.returns 0
        (RVal.dict [(("name"), JVal.str ("two")), (("full_text"), JVal.str ("2"))]))])]
      60 100 clearedCache []).invoked = [(("a"), ("shared"))] ∧
    (("b"), ("shared")) ∉
    (inject [(("a"), [(("shared"), fun _ => MethodOutcome.returns 0
        (RVal.dict [(("name"), JVal.str ("one")), (("full_text"), JVal.str ("1"))]))]),
      (("b"), [(("shared"), fun _ => MethodOutcome.returns 0
        (RVal.dict [(("name"), JVal.str ("two")), (("full_text"), JVal.str ("2"))]))])]
      60 100 clearedCache []).invoked := by
  constructor
  · rfl
  · decide

/-! ## The clock transformer (source lines 250-268) -/

/-- Source line 258: `item[name] in [time, tztime]`.  The membership test is
false without raising when the value is any other JSON scalar. -/
def isClockVal (v : JVal) : Bool :=
  v = .str ("time") || v = .str ("tztime")

/-- Whether the loop body of transform runs without raising on this item.
A non-mapping item and a missing name key raise; for clock items a missing
or non-string full_text and an unparsable time string raise as well.  The
time parser for the configured pattern is passed in as strp. -/
def transformOk (strp : String → Option Nat) (r : RVal) : Bool :=
  match r with
  | .nonDict _ => false
  | .dict seg =>
    match lookupKey seg ("name") with
    | none => false
    | some v =>
      if isClockVal v then
        match lookupKey seg ("full_text") with
        | some (.str ft) => (strp ft).isSome
        | _ => false
      else true

/-- Source line 264: mark the segment as synthetically transformed when the
delta is positive. -/
def withFlag (delta : Nat) (s : Segment) : Segment :=
  if delta > 0 then setKey s ("transformed") (.jbool true) else s

/-- The mutation the loop body performs on one non-raising item (source
lines 258-264): for clock items reparse full_text with the configured
pattern, add the delta seconds, reformat with the same pattern, and when
the delta is positive set the transformed flag. -/
def transformItem (strp : String → Option Nat) (strf : Nat → String)
    (delta : Nat) (r : RVal) : RVal :=
  match r with
  | .nonDict t => .nonDict t
  | .dict seg =>
    match lookupKey seg ("name") with
    | none => .dict seg
    | some v =>
      if isClockVal v then
        match lookupKey seg ("full_text") with
        | some (.str ft) =>
          match strp ft with
          | none => .dict seg
          | some t0 =>
            .dict (withFlag delta
              (setKey seg ("full_text") (.str (strf (t0 + delta)))))
        | _ => .dict seg
      else .dict seg

/-- The transformation loop (source lines 255-268).  The try block wraps
the whole for loop, so the first raising item ends processing for the rest
of the tick: it and every later item come back unmodified and the failure
is logged once (the Bool result).  The tick itself is always returned. -/
def transformGo (strp : String → Option Nat) (strf : Nat → String)
    (delta : Nat) : Tick → Tick × Bool
  | [] => ([], false)
  | r :: rest =>
    if transformOk strp r then
      let p := transformGo strp strf delta rest
      (transformItem strp strf delta r :: p.1, p.2)
    else (r :: rest, true)

def transform (strp : String → Option Nat) (strf : Nat → String)
    (delta : Nat) (j : Tick) : Tick × Bool :=
  transformGo strp strf delta j

/-- A concrete toy clock format used for closed instances: a time of n
seconds is displayed as n repetitions of the letter x. -/
def toyFmt (n : Nat) : String := String.mk (List.replicate n ('x'))

def toyParse (s : String) : Option Nat :=
  if s.data.all (fun c => c = 'x') then some s.data.length else none

/-! ## Claim C2: failure isolation in the transformer -/

/-- Claim C2 (amended): a parse failure on one clock-like segment leaves
that segment unmodified, is logged, and never aborts the tick — the whole
tick is still returned — but it ends the processing of the remainder of
the loop: segments before the failing one are transformed, while the
failing segment and every segment after it (clock-like ones included) are
returned unmodified. -/
theorem transform_failure_ends_loop (strp : String → Option Nat)
    (strf : Nat → String) (delta : Nat) (pre post : Tick) (bad : RVal)
    (hpre : ∀ r ∈ pre, transformOk strp r = true)
    (hbad : transformOk strp bad = false) :
    transform strp strf delta (pre ++ bad :: post)
      = (pre.map (transformItem strp strf delta) ++ bad :: post, true) := by
  unfold transform
  induction pre with
  | nil => simp [transformGo, hbad]
  | cons r rest ih =>
    have hr : transformOk strp r = true := hpre r (by simp)
    have hrec := ih (fun x hx => hpre x (by simp [hx]))
    simp [transformGo, hr, hrec]

theorem transform_failure_ends_loop_witness :
    transformOk toyParse (RVal.dict [(("name"), JVal.str ("time")),
      (("full_text"), JVal.str ("oops"))]) = false ∧
    transform toyParse toyFmt 1
      [RVal.dict [(("name"), JVal.str ("time")), (("full_text"), JVal.str ("oops"))],
       RVal.dict [(("name"), JVal.str ("time")), (("full_text"), JVal.str ("xx"))]]
      = ([RVal.dict [(("name"), JVal.str ("time")), (("full_text"), JVal.str ("oops"))],
          RVal.dict [(("name"), JVal.str ("time")), (("full_text"), JVal.str ("xx"))]],
         true) :=
  ⟨by decide,
   transform_failure_ends_loop toyParse toyFmt 1 []
     [RVal.dict [(("name"), JVal.str ("time")), (("full_text"), JVal.str ("xx"))]]
     (RVal.dict [(("name"), JVal.str ("time")), (("full_text"), JVal.str ("oops"))])
     (by intro r hr; cases hr) (by decide)⟩

/-- Counterexample to claim C2 as stated: in a tick whose first clock
segment has unparsable text and whose second clock segment is parsable,
transform returns the second segment unmodified — the failure is not
isolated to the failing segment, because the exception handler sits outside
the loop; processing the second segment alone does change it. -/
theorem transform_not_isolated :
    transform toyParse toyFmt 1
      [RVal.dict [(("name"), JVal.str ("time")), (("full_text"), JVal.str ("oops"))],
       RVal.dict [(("name"), JVal.str ("time")), (("full_text"), JVal.str ("xx"))]]
      = ([RVal.dict [(("name"), JVal.str ("time")), (("full_text"), JVal.str ("oops"))],
          RVal.dict [(("name"), JVal.str ("time")), (("full_text"), JVal.str ("xx"))]],
         true) ∧
    transformItem toyParse toyFmt 1
      (RVal.dict [(("name"), JVal.str ("time")), (("full_text"), JVal.str ("xx"))])
      ≠ RVal.dict [(("name"), JVal.str ("time")), (("full_text"), JVal.str ("xx"))] := by
  constructor
  · rfl
  · decide

/-! ## Claim C7: deltas compose additively -/

/-- The full_text value of the single segment of a one-segment tick. -/
def fullTextOf (t : Tick) : Option JVal :=
  match t with
  | [RVal.dict seg] => lookupKey seg ("full_text")
  | _ => none

theorem lookup_withFlag_ne (delta : Nat) (s : Segment) (k : String)
    (h : k ≠ ("transformed")) :
    lookupKey (withFlag delta s) k = lookupKey s k := by
  unfold withFlag
  split
  · exact lookup_setKey_ne _ _ _ _ h
  · rfl

/-- Claim C7: on a clock segment whose displayed text parses, applying the
transformer with delta d1 and then with delta d2 yields the same full_text
as applying it once with delta d1 + d2, provided the time pattern is fixed
and parsing succeeds at each step (the reparse of the formatted text is the
round trip hypothesis). -/
theorem transform_delta_additive (strp : String → Option Nat)
    (strf : Nat → String) (d1 d2 : Nat) (seg : Segment) (nm : JVal)
    (ft : String) (t0 : Nat)
    (hnm : lookupKey seg ("name") = some nm)
    (hclock : isClockVal nm = true)
    (hft : lookupKey seg ("full_text") = some (.str ft))
    (hparse : strp ft = some t0)
    (hround : strp (strf (t0 + d1)) = some (t0 + d1)) :
    fullTextOf (transform strp strf d2
        (transform strp strf d1 [RVal.dict seg]).1).1
      = fullTextOf (transform strp strf (d1 + d2) [RVal.dict seg]).1 := by
  have hok1 : transformOk strp (.dict seg) = true := by
    simp [transformOk, hnm, hclock, hft, hparse]
  have hitem1 : transformItem strp strf d1 (.dict seg)
      = .dict (withFlag d1 (setKey seg ("full_text") (.str (strf (t0 + d1))))) := by
    simp [transformItem, hnm, hclock, hft, hparse]
  have hitem12 : transformItem strp strf (d1 + d2) (.dict seg)
      = .dict (withFlag (d1 + d2)
          (setKey seg ("full_text") (.str (strf (t0 + (d1 + d2)))))) := by
    simp [transformItem, hnm, hclock, hft, hparse]
  have hstep1 : transform strp strf d1 [RVal.dict seg]
      = ([.dict (withFlag d1 (setKey seg ("full_text")
          (.str (strf (t0 + d1)))))], false) := by
    simp [transform, transformGo, hok1, hitem1]
  have hstep12 : transform strp strf (d1 + d2) [RVal.dict seg]
      = ([.dict (withFlag (d1 + d2) (setKey seg ("full_text")
          (.str (strf (t0 + (d1 + d2))))))], false) := by
    simp [transform, transformGo, hok1, hitem12]
  have hnm1 : lookupKey (withFlag d1 (setKey seg ("full_text")
      (.str (strf (t0 + d1))))) ("name") = some nm := by
    rw [lookup_withFlag_ne _ _ _ (by decide),
      lookup_setKey_ne _ _ _ _ (by decide), hnm]
  have hft1 : lookupKey (withFlag d1 (setKey seg ("full_text")
      (.str (strf (t0 + d1))))) ("full_text") = some (.str (strf (t0 + d1))) := by
    rw [lookup_withFlag_ne _ _ _ (by decide), lookup_setKey_self]
  have hok2 : transformOk strp (.dict (withFlag d1 (setKey seg ("full_text")
      (.str (strf (t0 + d1)))))) = true := by
    simp [transformOk, hnm1, hclock, hft1, hround]
  have hitem2 : transformItem strp strf d2 (.dict (withFlag d1 (setKey seg
      ("full_text") (.str (strf (t0 + d1))))))
      = .dict (withFlag d2 (setKey (withFlag d1 (setKey seg ("full_text")
          (.str (strf (t0 + d1))))) ("full_text")
          (.str (strf ((t0 + d1) + d2))))) := by
    simp [transformItem, hnm1, hclock, hft1, hround]
  have hstep2 : transform strp strf d2 [RVal.dict (withFlag d1 (setKey seg
      ("full_text") (.str (strf (t0 + d1)))))]
      = ([.dict (withFlag d2 (setKey (withFlag d1 (setKey seg ("full_text")
          (.str (strf (t0 + d1))))) ("full_text")
          (.str (strf ((t0 + d1) + d2)))))], false) := by
    simp [transform, transformGo, hok2, hitem2]
  rw [hstep1]
  simp only []
  rw [hstep2, hstep12]
  simp only [fullTextOf]
  rw [lookup_withFlag_ne _ _ _ (by decide), lookup_setKey_self,
    lookup_withFlag_ne _ _ _ (by decide), lookup_setKey_self,
    Nat.add_assoc]

theorem transform_delta_additive_witness :
    toyParse ("xx") = some 2 ∧ toyParse (toyFmt (2 + 1)) = some (2 + 1) ∧
    fullTextOf (transform toyParse toyFmt 3
        (transform toyParse toyFmt 1
          [RVal.dict [(("name"), JVal.str ("time")),
            (("full_text"), JVal.str ("xx"))]]).1).1
      = fullTextOf (transform toyParse toyFmt (1 + 3)
          [RVal.dict [(("name"), JVal.str ("time")),
            (("full_text"), JVal.str ("xx"))]]).1 :=
  ⟨by decide, by decide,
   transform_delta_additive toyParse toyFmt 1 3
     [(("name"), JVal.str ("time")), (("full_text"), JVal.str ("xx"))]
     (JVal.str ("time")) ("xx") 2 rfl (by decide) rfl (by decide) (by decide)⟩

/-! ## JSON wire encoding (the dumps side of process_line)

The encoder follows the default json.dumps output: object pairs joined by
comma-space with colon-space between key and value, arrays joined by
comma-space, strings quoted with the quote and backslash characters
escaped.  A tick containing a non-mapping value has no modelled encoding. -/

def escChar (c : Char) : List Char :=
  if c = '"' ∨ c = '\\' then ['\\', c] else [c]

def escList : List Char → List Char
  | [] => []
  | c :: rest => escChar c ++ escList rest

def encStr (s : String) : List Char := '"' :: (escList s.data ++ ['"'])

/-- Decimal digits of n, most significant first; the fuel argument only
bounds the recursion depth and n + 1 is always enough. -/
def encNatAux : Nat → Nat → List Char
  | 0, _ => []
  | fuel + 1, n =>
    if n < 10 then [Nat.digitChar n]
    else encNatAux fuel (n / 10) ++ [Nat.digitChar (n % 10)]

def encNat (n : Nat) : List Char := encNatAux (n + 1) n

def encJVal : JVal → List Char
  | .str s => encStr s
  | .jbool true => ['t', 'r', 'u', 'e']
  | .jbool false => ['f', 'a', 'l', 's', 'e']
  | .num n => if n < 0 then '-' :: encNat n.natAbs else encNat n.natAbs

def encPair (p : String × JVal) : List Char :=
  encStr p.1 ++ ':' :: ' ' :: encJVal p.2

def encFields : Segment → List Char
  | [] => []
  | [p] => encPair p
  | p :: rest => encPair p ++ ',' :: ' ' :: encFields rest

def encSegment (seg : Segment) : List Char :=
  match seg with
  | [] => ['{', '}']
  | _ => '{' :: (encFields seg ++ ['}'])

def encItems : Tick → Option (List Char)
  | [] => some []
  | [r] =>
    match r with
    | .dict seg => some (encSegment seg)
    | .nonDict _ => none
  | r :: rest =>
    match r with
    | .dict seg => (encItems rest).map (fun e => encSegment seg ++ ',' :: ' ' :: e)
    | .nonDict _ => none

def encTick (t : Tick) : Option (List Char) :=
  match t with
  | [] => some ['[', ']']
  | _ => (encItems t).map (fun e => '[' :: (e ++ [']']))

/-! ## JSON wire decoding (the loads side of process_line) -/

/-- Consume an expected literal character sequence. -/
def expectChars : List Char → List Char → Option (List Char)
  | [], l => some l
  | _ :: _, [] => none
  | p :: ps, c :: cs => if c = p then expectChars ps cs else none

/-- String body parser, to run after the opening quote: collects characters
up to the closing quote, understanding the two escapes the encoder emits. -/
def parseStrAux : List Char → Option (List Char × List Char)
  | [] => none
  | c :: rest =>
    if c = '"' then some ([], rest)
    else if c = '\\' then
      match rest with
      | [] => none
      | d :: rest2 =>
        if d = '"' ∨ d = '\\' then
          (parseStrAux rest2).map (fun p => (d :: p.1, p.2))
        else none
    else (parseStrAux rest).map (fun p => (c :: p.1, p.2))

def digitVal (c : Char) : Nat := c.toNat - 48

def parseDigitsAux : List Char → Nat → Nat × List Char
  | [], acc => (acc, [])
  | c :: rest, acc =>
    if c.isDigit then parseDigitsAux rest (acc * 10 + digitVal c)
    else (acc, c :: rest)

def parseJVal (l : List Char) : Option (JVal × List Char) :=
  match l with
  | [] => none
  | c :: rest =>
    if c = '"' then
      (parseStrAux rest).map (fun p => (.str (String.mk p.1), p.2))
    else if c = 't' then
      (expectChars (['r', 'u', 'e']) rest).map (fun r => (.jbool true, r))
    else if c = 'f' then
      (expectChars (['a', 'l', 's', 'e']) rest).map (fun r => (.jbool false, r))
    else if c = '-' then
      match rest with
      | [] => none
      | d :: rest2 =>
        if d.isDigit then
          some (.num (-((parseDigitsAux (d :: rest2) 0).1 : Int)),
            (parseDigitsAux (d :: rest2) 0).2)
        else none
    else if c.isDigit then
      some (.num ((parseDigitsAux (c :: rest) 0).1 : Int),
        (parseDigitsAux (c :: rest) 0).2)
    else none

def parsePair (l : List Char) : Option ((String × JVal) × List Char) :=
  match expectChars (['"']) l with
  | none => none
  | some rest =>
    match parseStrAux rest with
    | none => none
    | some (k, rest2) =>
      match expectChars ([':', ' ']) rest2 with
      | none => none
      | some rest3 => (parseJVal rest3).map (fun p => ((String.mk k, p.1), p.2))

/-- Fields of an object after the opening brace; the fuel bounds the number
of fields and the input length is always enough. -/
def parseFieldsAux : Nat → List Char → Option (Segment × List Char)
  | 0, _ => none
  | fuel + 1, l =>
    match parsePair l with
    | none => none
    | some (kv, rest) =>
      match expectChars ([',', ' ']) rest with
      | some rest2 =>
        match parseFieldsAux fuel rest2 with
        | none => none
        | some (seg, rest3) => some (kv :: seg, rest3)
      | none =>
        match expectChars (['}']) rest with
        | some rest2 => some ([kv], rest2)
        | none => none

def parseSegment (l : List Char) : Option (Segment × List Char) :=
  match expectChars (['{']) l with
  | none => none
  | some rest =>
    match expectChars (['}']) rest with
    | some rest2 => some ([], rest2)
    | none => parseFieldsAux rest.length rest

/-- Segments of an array after the opening bracket; fuel as above. -/
def parseSegmentsAux : Nat → List Char → Option (Tick × List Char)
  | 0, _ => none
  | fuel + 1, l =>
    match parseSegment l with
    | none => none
    | some (seg, rest) =>
      match expectChars ([',', ' ']) rest with
      | some rest2 =>
        match parseSegmentsAux fuel rest2 with
        | none => none
        | some (t, rest3) => some (RVal.dict seg :: t, rest3)
      | none =>
        match expectChars ([']']) rest with
        | some rest2 => some ([RVal.dict seg], rest2)
        | none => none

def parseTickChars (l : List Char) : Option (Tick × List Char) :=
  match expectChars (['[']) l with
  | none => none
  | some rest =>
    match expectChars ([']']) rest with
    | some rest2 => some ([], rest2)
    | none => parseSegmentsAux rest.length rest

/-- Full-line JSON decode: the whole line must be one tick (loads). -/
def parseTickFull (l : List Char) : Option Tick :=
  match parseTickChars l with
  | some (t, []) => some t
  | _ => none

/-! ## Round trip of the wire encoding, scalar layer -/

/-- True when the input does not continue with a digit, so that a number
parse stops exactly at this point. -/
def noDigitHead : List Char → Bool
  | [] => true
  | c :: _ => !c.isDigit

theorem expectChars_append (p r : List Char) : expectChars p (p ++ r) = some r := by
  induction p with
  | nil => rfl
  | cons c cs ih => simp [expectChars, ih]

theorem parseStrAux_escList : ∀ s r : List Char,
    parseStrAux (escList s ++ '"' :: r) = some (s, r) := by
  intro s
  induction s with
  | nil =>
    intro r
    simp only [escList, List.nil_append]
    unfold parseStrAux
    simp
  | cons c cs ih =>
    intro r
    by_cases hc : c = '"' ∨ c = '\\'
    · have he : escChar c = ['\\', c] := by simp [escChar, hc]
      simp only [escList, he, List.cons_append, List.append_assoc, List.nil_append]
      unfold parseStrAux
      simp [hc, ih]
    · have h1 : ¬ c = '"' := fun h => hc (Or.inl h)
      have h2 : ¬ c = '\\' := fun h => hc (Or.inr h)
      have he : escChar c = [c] := by simp [escChar, hc]
      simp only [escList, he, List.cons_append, List.nil_append]
      unfold parseStrAux
      simp [h1, h2, ih]

theorem digitChar_isDigit (n : Nat) (h : n < 10) :
    (Nat.digitChar n).isDigit = true := by
  interval_cases n <;> decide

theorem digitVal_digitChar (n : Nat) (h : n < 10) :
    digitVal (Nat.digitChar n) = n := by
  interval_cases n <;> decide

theorem parseDigitsAux_encNatAux : ∀ fuel n acc r, n < 10 ^ fuel →
    parseDigitsAux (encNatAux fuel n ++ r) acc
      = parseDigitsAux r (acc * 10 ^ (encNatAux fuel n).length + n) := by
  intro fuel
  induction fuel with
  | zero =>
    intro n acc r h
    have hn : n = 0 := by simpa using h
    subst hn
    simp [encNatAux]
  | succ f ih =>
    intro n acc r h
    by_cases hn : n < 10
    · simp only [encNatAux, if_pos hn, List.cons_append, List.nil_append,
        List.length_singleton]
      simp [parseDigitsAux, digitChar_isDigit n hn, digitVal_digitChar n hn]
    · have hdiv : n / 10 < 10 ^ f := by
        rw [Nat.div_lt_iff_lt_mul (by norm_num)]
        calc n < 10 ^ (f + 1) := h
          _ = 10 ^ f * 10 := by rw [pow_succ]
      have hmod : n % 10 < 10 := Nat.mod_lt n (by norm_num)
      simp only [encNatAux, if_neg hn, List.append_assoc, List.cons_append,
        List.nil_append]
      rw [ih (n / 10) acc (Nat.digitChar (n % 10) :: r) hdiv]
      simp only [parseDigitsAux, digitChar_isDigit _ hmod, if_pos,
        digitVal_digitChar _ hmod, List.length_append, List.length_singleton]
      congr 1
      have hdm : 10 * (n / 10) + n % 10 = n := Nat.div_add_mod n 10
      rw [pow_succ]
      generalize 10 ^ (encNatAux f (n / 10)).length = X
      have key : ∀ Y : Nat, (Y + n / 10) * 10 + n % 10 = Y * 10 + n := by
        intro Y
        omega
      calc (acc * X + n / 10) * 10 + n % 10 = (acc * X) * 10 + n := key (acc * X)
        _ = acc * (X * 10) + n := by ring_nf

theorem parseDigitsAux_stop (r : List Char) (acc : Nat)
    (hr : noDigitHead r = true) : parseDigitsAux r acc = (acc, r) := by
  cases r with
  | nil => rfl
  | cons c cs =>
    simp [noDigitHead] at hr
    simp [parseDigitsAux, hr]

theorem parseDigits_encNat (n : Nat) (r : List Char) (hr : noDigitHead r = true) :
    parseDigitsAux (encNat n ++ r) 0 = (n, r) := by
  have hpow : n < 10 ^ (n + 1) :=
    lt_of_lt_of_le (Nat.lt_pow_self (by norm_num) n)
      (Nat.pow_le_pow_right (by norm_num) (by omega))
  rw [encNat, parseDigitsAux_encNatAux (n + 1) n 0 r hpow,
    parseDigitsAux_stop r _ hr]
  simp

theorem encNatAux_head_digit : ∀ fuel n, n < 10 ^ fuel → 1 ≤ fuel →
    ∃ c cs, encNatAux fuel n = c :: cs ∧ c.isDigit = true := by
  intro fuel
  induction fuel with
  | zero => intro n h h1; omega
  | succ f ih =>
    intro n h _
    by_cases hn : n < 10
    · exact ⟨Nat.digitChar n, [], by simp [encNatAux, hn], digitChar_isDigit n hn⟩
    · have hf : 1 ≤ f := by
        rcases Nat.eq_zero_or_pos f with hf0 | hf0
        · subst hf0
          simp at h
          omega
        · omega
      have hdiv : n / 10 < 10 ^ f := by
        rw [Nat.div_lt_iff_lt_mul (by norm_num)]
        calc n < 10 ^ (f + 1) := h
          _ = 10 ^ f * 10 := by rw [pow_succ]
      obtain ⟨c, cs, hc, hcd⟩ := ih (n / 10) hdiv hf
      exact ⟨c, cs ++ [Nat.digitChar (n % 10)], by simp [encNatAux, hn, hc], hcd⟩

theorem encNat_head_digit (n : Nat) :
    ∃ c cs, encNat n = c :: cs ∧ c.isDigit = true :=
  encNatAux_head_digit (n + 1) n
    (lt_of_lt_of_le (Nat.lt_pow_self (by norm_num) n)
      (Nat.pow_le_pow_right (by norm_num) (by omega)))
    (by omega)

theorem isDigit_ne (c : Char) (h : c.isDigit = true) :
    ¬ c = '"' ∧ ¬ c = 't' ∧ ¬ c = 'f' ∧ ¬ c = '-' :=
  ⟨by rintro rfl; exact absurd h (by decide),
   by rintro rfl; exact absurd h (by decide),
   by rintro rfl; exact absurd h (by decide),
   by rintro rfl; exact absurd h (by decide)⟩

theorem parseJVal_enc : ∀ (v : JVal) (r : List Char), noDigitHead r = true →
    parseJVal (encJVal v ++ r) = some (v, r) := by
  intro v r hr
  match v with
  | .str s =>
    show parseJVal (encStr s ++ r) = _
    simp only [encStr, List.cons_append, List.append_assoc, List.singleton_append]
    simp [parseJVal, parseStrAux_escList]
  | .jbool true => simp [encJVal, parseJVal, expectChars]
  | .jbool false => simp [encJVal, parseJVal, expectChars]
  | .num n =>
    by_cases hneg : n < 0
    · obtain ⟨c, cs, hc, hcd⟩ := encNat_head_digit n.natAbs
      have hd := parseDigits_encNat n.natAbs r hr
      rw [hc] at hd
      simp only [List.cons_append] at hd
      have hne := isDigit_ne c hcd
      simp only [encJVal, if_pos hneg, hc, List.cons_append]
      simp [parseJVal, hcd, hd]
      rw [abs_of_nonpos (by omega : n ≤ 0), neg_neg]
    · obtain ⟨c, cs, hc, hcd⟩ := encNat_head_digit n.natAbs
      have hd := parseDigits_encNat n.natAbs r hr
      rw [hc] at hd
      simp only [List.cons_append] at hd
      have hne := isDigit_ne c hcd
      simp only [encJVal, if_neg hneg, hc, List.cons_append]
      simp [parseJVal, hne.1, hne.2.1, hne.2.2.1, hne.2.2.2, hcd, hd]
      omega

theorem parsePair_enc (p : String × JVal) (r : List Char)
    (hr : noDigitHead r = true) :
    parsePair (encPair p ++ r) = some (p, r) := by
  obtain ⟨k, v⟩ := p
  simp only [encPair, encStr, List.append_assoc, List.cons_append,
    List.singleton_append]
  simp [parsePair, expectChars, parseStrAux_escList, parseJVal_enc v r hr]

/-! ## Round trip of the wire encoding, object and array layer -/

theorem encPair_head (p : String × JVal) : ∃ tl, encPair p = '"' :: tl :=
  ⟨escList p.1.data ++ ['"'] ++ ':' :: ' ' :: encJVal p.2,
   by simp [encPair, encStr]⟩

theorem encFields_head (seg : Segment) (h : seg ≠ []) :
    ∃ tl, encFields seg = '"' :: tl := by
  cases seg with
  | nil => exact absurd rfl h
  | cons p rest =>
    obtain ⟨tl, htl⟩ := encPair_head p
    cases rest with
    | nil => exact ⟨tl, by simp [encFields, htl]⟩
    | cons q tl2 =>
      exact ⟨tl ++ ',' :: ' ' :: encFields (q :: tl2), by simp [encFields, htl]⟩

theorem encFields_length : ∀ seg : Segment, seg.length ≤ (encFields seg).length := by
  intro seg
  induction seg with
  | nil => simp [encFields]
  | cons p rest ih =>
    obtain ⟨tl, htl⟩ := encPair_head p
    cases rest with
    | nil => simp [encFields, htl]
    | cons q tl2 =>
      simp only [encFields, htl, List.length_append, List.length_cons,
        List.length_nil] at ih ⊢
      omega

theorem parseFieldsAux_enc : ∀ seg : Segment, ∀ fuel r,
    seg ≠ [] → seg.length ≤ fuel →
    parseFieldsAux fuel (encFields seg ++ '}' :: r) = some (seg, r) := by
  intro seg
  induction seg with
  | nil => intro fuel r h _; exact absurd rfl h
  | cons p rest ih =>
    intro fuel r _ hlen
    cases fuel with
    | zero => simp at hlen
    | succ f =>
      cases rest with
      | nil =>
        have hp := parsePair_enc p ('}' :: r) (by simp [noDigitHead])
        simp only [encFields]
        unfold parseFieldsAux
        simp only [hp]
        simp [expectChars]
      | cons q tl =>
        have hp := parsePair_enc p
          (',' :: ' ' :: (encFields (q :: tl) ++ '}' :: r))
          (by simp [noDigitHead])
        have hrec := ih f r (by simp) (by simp at hlen ⊢; omega)
        simp only [encFields, List.append_assoc, List.cons_append]
        unfold parseFieldsAux
        simp only [hp]
        simp [expectChars, hrec]

theorem parseSegment_enc (seg : Segment) (r : List Char) :
    parseSegment (encSegment seg ++ r) = some (seg, r) := by
  cases seg with
  | nil =>
    simp only [encSegment, List.cons_append]
    unfold parseSegment
    simp [expectChars]
  | cons p rest =>
    obtain ⟨tl, htl⟩ := encFields_head (p :: rest) (by simp)
    have hlen := encFields_length (p :: rest)
    have hform : encSegment (p :: rest) ++ r
        = '{' :: (encFields (p :: rest) ++ ('}' :: r)) := by
      simp [encSegment]
    rw [hform]
    unfold parseSegment
    have h1 : expectChars (['{']) ('{' :: (encFields (p :: rest) ++ ('}' :: r)))
        = some (encFields (p :: rest) ++ ('}' :: r)) := by simp [expectChars]
    have h2 : expectChars (['}']) (encFields (p :: rest) ++ ('}' :: r)) = none := by
      rw [htl]
      simp [expectChars]
    simp only [h1, h2]
    simp only [List.length_cons] at hlen
    exact parseFieldsAux_enc (p :: rest) _ r (by simp)
      (by simp only [List.length_append, List.length_cons]; omega)

theorem encSegment_head (seg : Segment) : ∃ tl, encSegment seg = '{' :: tl := by
  cases seg with
  | nil => exact ⟨['}'], rfl⟩
  | cons p rest => exact ⟨encFields (p :: rest) ++ ['}'], by simp [encSegment]⟩

theorem encItems_cons2 (seg : Segment) (y : RVal) (tl : Tick) :
    encItems (RVal.dict seg :: y :: tl)
      = (encItems (y :: tl)).map (fun e => encSegment seg ++ ',' :: ' ' :: e) := rfl

theorem encTick_cons (x : RVal) (rest : Tick) :
    encTick (x :: rest)
      = (encItems (x :: rest)).map (fun e => '[' :: (e ++ [']'])) := rfl

theorem encItems_cons_cons (x : RVal) (y : RVal) (tl : Tick) (e : List Char)
    (h : encItems (x :: y :: tl) = some e) :
    ∃ seg e2, x = RVal.dict seg ∧ encItems (y :: tl) = some e2 ∧
      e = encSegment seg ++ ',' :: ' ' :: e2 := by
  cases x with
  | nonDict tag => simp [encItems] at h
  | dict seg =>
    cases he2 : encItems (y :: tl) with
    | none => rw [encItems_cons2, he2] at h; simp at h
    | some e2 =>
      rw [encItems_cons2, he2] at h
      simp at h
      exact ⟨seg, e2, rfl, rfl, h.symm⟩

theorem encItems_singleton (x : RVal) (e : List Char)
    (h : encItems [x] = some e) :
    ∃ seg, x = RVal.dict seg ∧ e = encSegment seg := by
  cases x with
  | nonDict tag => simp [encItems] at h
  | dict seg =>
    simp [encItems] at h
    exact ⟨seg, rfl, h.symm⟩

theorem parseSegmentsAux_enc : ∀ t : Tick, ∀ e fuel r, t.length ≤ fuel →
    encItems t = some e → t ≠ [] →
    parseSegmentsAux fuel (e ++ ']' :: r) = some (t, r) := by
  intro t
  induction t with
  | nil => intro e fuel r _ _ h; exact absurd rfl h
  | cons x rest ih =>
    intro e fuel r hlen henc _
    cases fuel with
    | zero => simp at hlen
    | succ f =>
      cases rest with
      | nil =>
        obtain ⟨seg, hx, he⟩ := encItems_singleton x e henc
        subst hx
        subst he
        have hs := parseSegment_enc seg (']' :: r)
        unfold parseSegmentsAux
        simp only [hs]
        simp [expectChars]
      | cons y tl =>
        obtain ⟨seg, e2, hx, he2, he⟩ := encItems_cons_cons x y tl e henc
        subst hx
        subst he
        have hs := parseSegment_enc seg (',' :: ' ' :: (e2 ++ ']' :: r))
        have hrec := ih e2 f r (by simp at hlen ⊢; omega) he2 (by simp)
        simp only [List.append_assoc, List.cons_append]
        unfold parseSegmentsAux
        simp only [hs]
        simp [expectChars, hrec]

theorem encItems_head (t : Tick) (e : List Char) (h : encItems t = some e)
    (hne : t ≠ []) : ∃ tl, e = '{' :: tl := by
  cases t with
  | nil => exact absurd rfl hne
  | cons x rest =>
    cases rest with
    | nil =>
      obtain ⟨seg, _, he⟩ := encItems_singleton x e h
      obtain ⟨tl, htl⟩ := encSegment_head seg
      exact ⟨tl, by rw [he, htl]⟩
    | cons y tl2 =>
      obtain ⟨seg, e2, _, _, he⟩ := encItems_cons_cons x y tl2 e h
      obtain ⟨tl, htl⟩ := encSegment_head seg
      exact ⟨tl ++ ',' :: ' ' :: e2, by rw [he, htl]; simp⟩

theorem encSegment_ne_nil (seg : Segment) : encSegment seg ≠ [] := by
  obtain ⟨tl, htl⟩ := encSegment_head seg
  simp [htl]

theorem encItems_length : ∀ t : Tick, ∀ e, encItems t = some e →
    t.length ≤ e.length := by
  intro t
  induction t with
  | nil => intro e h; simp [encItems] at h; simp [← h]
  | cons x rest ih =>
    intro e h
    cases rest with
    | nil =>
      obtain ⟨seg, _, he⟩ := encItems_singleton x e h
      subst he
      obtain ⟨tl, htl⟩ := encSegment_head seg
      simp [htl]
    | cons y tl2 =>
      obtain ⟨seg, e2, _, he2, he⟩ := encItems_cons_cons x y tl2 e h
      subst he
      have := ih e2 he2
      obtain ⟨tl, htl⟩ := encSegment_head seg
      simp only [htl, List.length_append, List.length_cons] at this ⊢
      omega

theorem parseTickChars_enc (t : Tick) (e r : List Char)
    (h : encTick t = some e) : parseTickChars (e ++ r) = some (t, r) := by
  cases t with
  | nil =>
    simp [encTick] at h
    subst h
    unfold parseTickChars
    simp [expectChars]
  | cons x rest =>
    have hne : (x :: rest : Tick) ≠ [] := by simp
    cases hei : encItems (x :: rest) with
    | none => rw [encTick_cons, hei] at h; simp at h
    | some ei =>
      rw [encTick_cons, hei] at h
      simp at h
      subst h
      obtain ⟨tl, htl⟩ := encItems_head (x :: rest) ei hei hne
      have hlen := encItems_length (x :: rest) ei hei
      have hform : ('[' :: (ei ++ [']'])) ++ r = '[' :: (ei ++ (']' :: r)) := by
        simp
      rw [hform]
      unfold parseTickChars
      have h1 : expectChars (['[']) ('[' :: (ei ++ (']' :: r)))
          = some (ei ++ (']' :: r)) := by simp [expectChars]
      have h2 : expectChars ([']']) (ei ++ (']' :: r)) = none := by
        rw [htl]
        simp [expectChars]
      simp only [h1, h2]
      simp only [List.length_cons] at hlen
      exact parseSegmentsAux_enc (x :: rest) ei _ r
        (by simp only [List.length_append, List.length_cons]; omega) hei hne

theorem parseTickFull_enc (t : Tick) (e : List Char) (h : encTick t = some e) :
    parseTickFull e = some t := by
  have hp := parseTickChars_enc t e [] h
  rw [List.append_nil] at hp
  simp [parseTickFull, hp]

theorem encTick_head (t : Tick) (e : List Char) (h : encTick t = some e) :
    ∃ tl, e = '[' :: tl := by
  cases t with
  | nil =>
    simp [encTick] at h
    exact ⟨[']'], h.symm⟩
  | cons x rest =>
    cases hei : encItems (x :: rest) with
    | none => rw [encTick_cons, hei] at h; simp at h
    | some ei =>
      rw [encTick_cons, hei] at h
      simp at h
      exact ⟨ei ++ [']'], h.symm⟩

theorem encTick_length (t : Tick) (e : List Char) (h : encTick t = some e) :
    2 ≤ e.length := by
  cases t with
  | nil =>
    simp [encTick] at h
    simp [← h]
  | cons x rest =>
    cases hei : encItems (x :: rest) with
    | none => rw [encTick_cons, hei] at h; simp at h
    | some ei =>
      rw [encTick_cons, hei] at h
      simp at h
      have h1 := encItems_length (x :: rest) ei hei
      simp only [← h, List.length_cons, List.length_append,
        List.length_singleton]
      simp only [List.length_cons] at h1
      omega

/-! ## Protocol line classification (source lines 180-206)

Raw lines are modelled with the trailing newline already stripped, so the
array-open test of source line 186 (equality with the bracket-newline
string) becomes equality with the one-character bracket line. -/

def startsWithChar (c : Char) : List Char → Bool
  | [] => false
  | d :: _ => d = c

def hasPrefixSeq : List Char → List Char → Bool
  | [], _ => true
  | _ :: _, [] => false
  | p :: ps, c :: cs => c = p && hasPrefixSeq ps cs

def containsSeq (p : List Char) : List Char → Bool
  | [] => hasPrefixSeq p []
  | c :: cs => hasPrefixSeq p (c :: cs) || containsSeq p cs

def versionChars : List Char := ['v', 'e', 'r', 's', 'i', 'o', 'n']

/-- Source line 184: a header line starts with the opening brace and
mentions the version tag somewhere. -/
def isHeaderLine (l : List Char) : Bool :=
  startsWithChar ('{') l && containsSeq versionChars l

inductive ProtocolLine where
  | header (raw : List Char)
  | arrayOpen
  | element (hadComma : Bool) (tick : Tick)
deriving DecidableEq

/-- The classification process_line performs on a raw line: header and
array-open lines pass through untouched; anything else is an element whose
optional leading comma is stripped and recorded and whose payload is
JSON-decoded (none models the loads exception on a malformed line). -/
def classify (l : List Char) : Option ProtocolLine :=
  if isHeaderLine l then some (.header l)
  else if l = (['[']) then some .arrayOpen
  else if startsWithChar (',') l then (parseTickFull l.tail).map (.element true)
  else (parseTickFull l).map (.element false)

/-- The inverse serialization: header and array-open verbatim, an element as
the optional leading comma plus the compact JSON encoding of its tick
(source lines 189-204); a tick holding a non-JSON value has no encoding. -/
def serialize : ProtocolLine → Option (List Char)
  | .header raw => some raw
  | .arrayOpen => some (['['])
  | .element b t => (encTick t).map (fun e => (if b then [','] else []) ++ e)

/-! ## Claim C6: classify and serialize round trip -/

/-- Claim C6: classifying then re-serializing is the identity on well
formed protocol lines in normalized (key order and compact encoding
preserving) form: a header line and the array-open line round trip
verbatim, and an element line — the optional leading comma followed by the
JSON encoding of a tick — classifies to exactly that comma flag and tick
and re-serializes to the same line. -/
theorem classify_serialize_id :
    (∀ raw : List Char, isHeaderLine raw = true →
      classify raw = some (.header raw) ∧ serialize (.header raw) = some raw) ∧
    (classify (['[']) = some .arrayOpen ∧ serialize .arrayOpen = some (['['])) ∧
    (∀ (b : Bool) (t : Tick) (e : List Char), encTick t = some e →
      classify ((if b then [','] else []) ++ e) = some (.element b t) ∧
      serialize (.element b t) = some ((if b then [','] else []) ++ e)) := by
  refine ⟨?_, ⟨?_, rfl⟩, ?_⟩
  · intro raw hraw
    exact ⟨by simp [classify, hraw], rfl⟩
  · have hh : isHeaderLine (['[']) = false := by decide
    simp [classify, hh]
  · intro b t e henc
    obtain ⟨tl, htl⟩ := encTick_head t e henc
    have hlen := encTick_length t e henc
    have hfull := parseTickFull_enc t e henc
    refine ⟨?_, by simp [serialize, henc]⟩
    cases b with
    | false =>
      have hh : isHeaderLine e = false := by
        rw [htl]
        simp [isHeaderLine, startsWithChar]
      have hne : ¬ e = (['[']) := by
        intro hEq
        rw [hEq] at hlen
        simp at hlen
      have hcm : startsWithChar (',') e = false := by
        rw [htl]
        simp [startsWithChar]
      simp [classify, hh, hne, hcm, hfull]
    | true =>
      have hh : isHeaderLine (',' :: e) = false := by
        simp [isHeaderLine, startsWithChar]
      have hne : ¬ (',' :: e) = (['[']) := by
        intro hEq
        have := List.head_eq_of_cons_eq hEq
        exact absurd this (by decide)
      simp [classify, hh, hne, startsWithChar, hfull]

theorem classify_serialize_id_witness :
    encTick [RVal.dict [(("name"), JVal.str ("a"))]]
      = some (['[', '{', '"', 'n', 'a', 'm', 'e', '"', ':', ' ', '"', 'a', '"',
          '}', ']']) ∧
    classify ((if true then [','] else []) ++
        ['[', '{', '"', 'n', 'a', 'm', 'e', '"', ':', ' ', '"', 'a', '"',
          '}', ']'])
      = some (.element true [RVal.dict [(("name"), JVal.str ("a"))]]) :=
  ⟨by decide,
   (classify_serialize_id.2.2 true [RVal.dict [(("name"), JVal.str ("a"))]] _
     (by decide)).1⟩

/-! ## The full line processor and claim C8 -/

/-- The process_line pipeline (source lines 180-206): header and array-open
lines are printed unchanged; an element line has its optional leading comma
stripped — with a comma prepended to the output when it was present, or
when the time delta is positive (the synthetic tick path) — its payload
decoded, transformed (unless disabled), run through inject, and re-encoded.
none models the propagated exception on a malformed line. -/
def process_line (strp : String → Option Nat) (strf : Nat → String)
    (reg : Registry) (timeout now : Nat) (disable : Bool) (cache : Cache)
    (delta : Nat) (l : List Char) : Option (List Char × Cache) :=
  if isHeaderLine l then some (l, cache)
  else if l = (['[']) then some ((['[']), cache)
  else
    match parseTickFull (if startsWithChar (',') l then l.tail else l) with
    | none => none
    | some j =>
      match encTick (inject reg timeout now cache
          (if disable then j else (transform strp strf delta j).1)).tick with
      | none => none
      | some e =>
        some ((if startsWithChar (',') l then [','] else
            if 0 < delta then [','] else []) ++ e,
          (inject reg timeout now cache
            (if disable then j else (transform strp strf delta j).1)).cache)

/-- A concrete element line with no leading comma. -/
def exLine : List Char :=
  ['[', '{', '"', 'n', 'a', 'm', 'e', '"', ':', ' ', '"', 'a', '"', '}', ']']

/-- Counterexample to claim C8 as stated: re-processing (as the synthetic
tick path does) a last real element line that had no leading comma, with
delta equal to the tick interval, emits the line WITH a leading comma:
process_line prepends one whenever the delta is positive, so the original
leading-comma flag is not preserved for comma-less lines. -/
theorem synthetic_line_gains_comma :
    process_line toyParse toyFmt [] 60 0 false clearedCache 1 exLine
      = some (',' :: exLine, clearedCache) := by decide

/-- Claim C8 (amended): re-serializing an element line keeps a leading
comma when the original line had one, and adds one when the line had none
but the delta is positive — a synthetic tick is always emitted with a
leading comma; only with delta zero is the absence of a leading comma
preserved. -/
theorem process_line_comma_flag (strp : String → Option Nat)
    (strf : Nat → String) (reg : Registry) (timeout now : Nat)
    (disable : Bool) (cache : Cache) (delta : Nat) (b : Bool) (t : Tick)
    (e out : List Char) (cache2 : Cache)
    (henc : encTick t = some e)
    (hres : process_line strp strf reg timeout now disable cache delta
        ((if b then [','] else []) ++ e) = some (out, cache2)) :
    startsWithChar (',') out = true ↔ (b = true ∨ 0 < delta) := by
  obtain ⟨tl, htl⟩ := encTick_head t e henc
  have hlen := encTick_length t e henc
  have hfull := parseTickFull_enc t e henc
  cases b with
  | true =>
    have hh : isHeaderLine (',' :: e) = false := by
      simp [isHeaderLine, startsWithChar]
    have hne : ¬ (',' :: e) = (['[']) := by
      intro hEq
      have := List.head_eq_of_cons_eq hEq
      exact absurd this (by decide)
    unfold process_line at hres
    simp [hh, hne, startsWithChar, hfull] at hres
    cases henc2 : encTick (inject reg timeout now cache
        (if disable then t else (transform strp strf delta t).1)).tick with
    | none => rw [henc2] at hres; simp at hres
    | some e2 =>
      rw [henc2] at hres
      simp at hres
      rw [← hres.1]
      simp [startsWithChar]
  | false =>
    have hh : isHeaderLine e = false := by
      rw [htl]
      simp [isHeaderLine, startsWithChar]
    have hne : ¬ e = (['[']) := by
      intro hEq
      rw [hEq] at hlen
      simp at hlen
    have hcm : startsWithChar (',') e = false := by
      rw [htl]
      simp [startsWithChar]
    unfold process_line at hres
    simp [hh, hne, hcm, hfull] at hres
    cases henc2 : encTick (inject reg timeout now cache
        (if disable then t else (transform strp strf delta t).1)).tick with
    | none => rw [henc2] at hres; simp at hres
    | some e2 =>
      rw [henc2] at hres
      simp at hres
      obtain ⟨tl2, htl2⟩ := encTick_head _ e2 henc2
      by_cases hd : 0 < delta
      · rw [← hres.1]
        simp [hd, startsWithChar]
      · rw [← hres.1]
        simp [hd, startsWithChar, htl2]

theorem process_line_comma_flag_witness :
    encTick [RVal.dict [(("name"), JVal.str ("a"))]] = some exLine ∧
    process_line toyParse toyFmt [] 60 0 false clearedCache 0
        ((if true then [','] else []) ++ exLine)
      = some (',' :: exLine, clearedCache) ∧
    (startsWithChar (',') (',' :: exLine) = true ↔ (true = true ∨ 0 < 0)) :=
  ⟨by decide, by decide,
   process_line_comma_flag toyParse toyFmt [] 60 0 false clearedCache 0 true
     [RVal.dict [(("name"), JVal.str ("a"))]] exLine (',' :: exLine)
     clearedCache (by decide) (by decide)⟩

end Py3status
